import Mathlib

/-!
Verification of the clique-graph treewidth heuristic repository.

This file gives a shallow embedding, in Lean 4, of the parts of the Rust
crate that the frozen claims talk about: the petgraph-style undirected
graph operations, the partial-k-tree generator, the
maximum-minimum-degree-plus lower bound, the connected-component search,
the Bron-Kerbosch maximal-clique enumerator and its bounded variant, the
clique-graph construction, the bag-filling spanning-tree strategies and
the path-fill procedure.  Machine integers of the source are embedded as
Nat (usize) and Int (i32); Rust HashSet values are embedded as
insertion-ordered duplicate-free lists, which realises one fixed hasher;
panics are embedded as the error case of Except; randomness is embedded
as an explicit stream of naturals consumed position by position.
-/

set_option linter.unusedVariables false

namespace CliqueTW

/-- Edge of a petgraph-style undirected graph with irrelevant weight
(the source stores i32 weights on these edges but never reads them). -/
structure SEdge where
  src : Nat
  tgt : Nat
  deriving Repr, DecidableEq

/-- Petgraph-style undirected graph with Nat node weights, as used by
generate_partial_k_tree.rs and maximum_minimum_degree_heuristic.rs.
Node indices are positions in the node list, edge indices positions in
the edge list. -/
structure SGraph where
  nodes : List Nat
  edges : List SEdge
  deriving Repr, DecidableEq

def SGraph.nodeCount (g : SGraph) : Nat := g.nodes.length

/-- Model of petgraph add_node: appends, returns the new index. -/
def SGraph.addNode (g : SGraph) (w : Nat) : SGraph × Nat :=
  ({ g with nodes := g.nodes ++ [w] }, g.nodes.length)

/-- Model of petgraph add_edge (weight dropped, never read by the code
under verification). -/
def SGraph.addEdge (g : SGraph) (a b : Nat) : SGraph :=
  { g with edges := g.edges ++ [⟨a, b⟩] }

/-- Model of petgraph neighbors for an undirected graph: both adjacency
lists are walked most-recently-added edge first. -/
def SGraph.neighbors (g : SGraph) (v : Nat) : List Nat :=
  (g.edges.reverse.filterMap fun e => if e.src = v then some e.tgt else none)
    ++ (g.edges.reverse.filterMap fun e => if e.tgt = v then some e.src else none)

/-- Model of petgraph contains_edge on an undirected graph. -/
def SGraph.containsEdge (g : SGraph) (a b : Nat) : Bool :=
  g.edges.any fun e => (e.src = a ∧ e.tgt = b) ∨ (e.src = b ∧ e.tgt = a)

/-- Model of petgraph node_identifiers: indices in increasing order. -/
def SGraph.nodeIdentifiers (g : SGraph) : List Nat := List.range g.nodes.length

/-- Does the edge touch the vertex. -/
def SEdge.touches (e : SEdge) (a : Nat) : Prop := e.src = a ∨ e.tgt = a

instance (e : SEdge) (a : Nat) : Decidable (e.touches a) := by
  unfold SEdge.touches; infer_instance

/-- Model of petgraph remove_node: all incident edges are dropped and the
node is swap-removed, the last node index being renamed to the removed
index (the edge list order after the internal swap removals is abstracted
to a filter; no claim below depends on the edge list order after a
removal). -/
def SGraph.removeNode (g : SGraph) (a : Nat) : SGraph :=
  if a < g.nodes.length then
    let lastIdx := g.nodes.length - 1
    let ren := fun i => if i = lastIdx then a else i
    { nodes := (g.nodes.set a (g.nodes.getD lastIdx 0)).dropLast
      edges := (g.edges.filter fun e => decide (¬ e.touches a)).map
        fun e => ⟨ren e.src, ren e.tgt⟩ }
  else g

/-- Model of petgraph remove_edge by edge index: swap-remove, the last
edge index adopting the removed index; out-of-range indices are ignored
(remove_edge returns None). -/
def SGraph.removeEdgeAt (g : SGraph) (e : Nat) : SGraph :=
  if e < g.edges.length then
    { g with edges := (g.edges.set e (g.edges.getD (g.edges.length - 1) ⟨0, 0⟩)).dropLast }
  else g

/-- Rust HashSet insertion on the insertion-ordered list model. -/
def hsInsert (l : List Nat) (x : Nat) : List Nat :=
  if x ∈ l then l else l ++ [x]

/-- Rust collect into a HashSet, on the insertion-ordered list model. -/
def hsFromList (l : List Nat) : List Nat := l.foldl hsInsert []

/-- Rust HashSet intersection: elements of the first set, in order, that
are members of the second. -/
def hsInter (a b : List Nat) : List Nat := a.filter fun x => decide (x ∈ b)

/-- Rust Iterator min_by_key: the first element attaining the minimal
key. -/
def minByKeyAux {α β : Type} [LinearOrder β] (f : α → β) (best : α) : List α → α
  | [] => best
  | x :: xs => minByKeyAux f (if f x < f best then x else best) xs

def minByKey {α β : Type} [LinearOrder β] (f : α → β) : List α → Option α
  | [] => none
  | x :: xs => some (minByKeyAux f x xs)

/-- Rust Iterator max_by_key: the last element attaining the maximal
key. -/
def maxByKeyAux {α β : Type} [LinearOrder β] (f : α → β) (best : α) : List α → α
  | [] => best
  | x :: xs => maxByKeyAux f (if f best ≤ f x then x else best) xs

def maxByKey {α β : Type} [LinearOrder β] (f : α → β) : List α → Option α
  | [] => none
  | x :: xs => some (maxByKeyAux f x xs)

theorem minByKeyAux_mem {α β : Type} [LinearOrder β] (f : α → β) :
    ∀ (l : List α) (best : α), minByKeyAux f best l = best ∨ minByKeyAux f best l ∈ l
  | [], best => Or.inl rfl
  | x :: xs, best => by
    simp only [minByKeyAux]
    rcases minByKeyAux_mem f xs (if f x < f best then x else best) with h | h
    · rw [h]; split
      · right; exact List.mem_cons_self _ _
      · left; rfl
    · right; exact List.mem_cons_of_mem _ h

theorem minByKey_mem {α β : Type} [LinearOrder β] (f : α → β) (l : List α) (x : α)
    (h : minByKey f l = some x) : x ∈ l := by
  cases l with
  | nil => simp [minByKey] at h
  | cons a as =>
    simp only [minByKey, Option.some.injEq] at h
    rcases minByKeyAux_mem f as a with h2 | h2
    · rw [h] at h2; simp [h2]
    · rw [h] at h2; simp [h2]

/-! Embedding of treewidth_heuristic/src/maximum_minimum_degree_heuristic.rs. -/

/-- Embedding of contract_edge (lines 57 to 79): if the edge exists, a
fresh default-weight node inheriting the union of the two adjacencies is
added and both endpoints are removed; otherwise nothing happens. -/
def contractEdge (g : SGraph) (a b : Nat) : SGraph :=
  if g.containsEdge a b then
    let p := g.addNode 0
    let g1 := p.1
    let newV := p.2
    let toAdd := hsFromList (g1.neighbors a ++ g1.neighbors b)
    let g2 := toAdd.foldl (fun h x => h.addEdge newV x) g1
    (g2.removeNode a).removeNode b
  else g

/-- One-loop body plus recursion of maximum_minimum_degree_plus
(lines 7 to 54).  The fuel argument only bounds the iteration count: the
Rust loop strictly decreases the node count, and maximumMinimumDegreePlus
below supplies enough fuel.  The error cases embed the two expect panics
of the source (the second one fires on a minimum-degree vertex with no
neighbours). -/
def mmdLoop (fuel : Nat) (g : SGraph) (acc : Nat) : Except String Nat :=
  match fuel with
  | 0 => if 2 ≤ g.nodeCount then .error "mmd fuel exhausted" else .ok acc
  | fuel + 1 =>
    if 2 ≤ g.nodeCount then
      match minByKey (fun v => (g.neighbors v).length) g.nodeIdentifiers with
      | none => .error "Graph should have at least 2 nodes"
      | some v =>
        let acc2 := Nat.max acc (g.neighbors v).length
        let nbrs := hsFromList (g.neighbors v)
        match minByKey
            (fun w => if w = v then g.nodeCount + 1
              else (hsInter (hsFromList (g.neighbors w)) nbrs).length) nbrs with
        | none => .error "Graph should have at least 2 nodes"
        | some w => mmdLoop fuel (contractEdge g v w) acc2
    else .ok acc

/-- Embedding of maximum_minimum_degree_plus: repeatedly contract the
edge between the minimum-degree vertex and its least-common-neighbours
neighbour while at least two vertices remain, recording the maximal
minimum degree seen. -/
def maximumMinimumDegreePlus (g : SGraph) : Except String Nat :=
  mmdLoop g.nodeCount g 0

/-! Embedding of src/src/generate_partial_k_tree.rs. -/

/-- Embedding of generate_complete_graph (lines 103 to 120): k nodes with
weights 0 to k-1, and the edges i -- j for i < j in nested loop order. -/
def generateCompleteGraph (k : Nat) : SGraph :=
  { nodes := List.range k
    edges := (List.range k).flatMap fun i =>
      ((List.range k).drop (i + 1)).map fun j => ⟨i, j⟩ }

/-- Loop body of generate_k_tree (lines 81 to 95): each step adds one
vertex, connects it to every member of a randomly chosen live k-clique
and pushes the k derived live cliques.  The random choice draws one value
from the stream. -/
def kTreeLoop (rng : Nat → Nat) :
    Nat → Nat → SGraph → List (List Nat) → Nat → SGraph × Nat
  | 0, pos, g, cliques, i => (g, pos)
  | steps + 1, pos, g, cliques, i =>
    let p := g.addNode i
    let g1 := p.1
    let newV := p.2
    let chosen := cliques.getD (rng pos % cliques.length) []
    let g2 := chosen.foldl (fun h x => h.addEdge newV x) g1
    let newCliques := chosen.map fun old =>
      (chosen.filter fun x => decide (x ≠ old)) ++ [newV]
    kTreeLoop rng steps (pos + 1) g2 (cliques ++ newCliques) (i + 1)

/-- Embedding of generate_k_tree (lines 74 to 99): none when k exceeds n,
otherwise the complete graph on k vertices extended by n - k vertices via
kTreeLoop.  The returned Nat is the advanced position in the random
stream. -/
def generateKTree (rng : Nat → Nat) (pos : Nat) (k n : Nat) :
    Option (SGraph × Nat) :=
  if n < k then none
  else
    let g := generateCompleteGraph k
    some (kTreeLoop rng (n - k) pos g [g.nodeIdentifiers] k)

/-- Reservoir replacement phase of rand choose_multiple: every element
after the first amount ones draws one random value and overwrites a
reservoir slot when the value is small enough. -/
def reservoirLoop (rng : Nat → Nat) (amount : Nat) :
    List Nat → List Nat → Nat → Nat → List Nat × Nat
  | [], res, pos, i => (res, pos)
  | x :: xs, res, pos, i =>
    let k := rng pos % (i + 1 + amount)
    reservoirLoop rng amount xs (if k < res.length then res.set k x else res)
      (pos + 1) (i + 1)

/-- Embedding of rand IteratorRandom choose_multiple via reservoir
sampling: the first amount elements fill the reservoir in encounter
order; when fewer than amount elements exist they are all returned. -/
def chooseMultiple (rng : Nat → Nat) (pos : Nat) (xs : List Nat) (amount : Nat) :
    List Nat × Nat :=
  let reservoir := xs.take amount
  if reservoir.length = amount then
    reservoirLoop rng amount (xs.drop amount) reservoir pos 0
  else (reservoir, pos)

/-- Embedding of generate_partial_k_tree (lines 47 to 70): generate a
k-tree, assert its edge count, then remove
min(edges * p / 100, edges) edges chosen by choose_multiple, removing
them one by one by edge index (with petgraph swap-remove semantics). -/
def generatePartialKTree (rng : Nat → Nat) (pos : Nat) (k n p : Nat) :
    Except String (Option (SGraph × Nat)) :=
  match generateKTree rng pos k n with
  | none => .ok none
  | some (g, pos1) =>
    let numberOfEdges := k * (k - 1) / 2 + k * (n - k)
    if numberOfEdges = g.edges.length then
      let toRemove := Nat.min (numberOfEdges * p / 100) numberOfEdges
      let c := chooseMultiple rng pos1 (List.range g.edges.length) toRemove
      .ok (some (c.1.foldl (fun h e => h.removeEdgeAt e) g, c.2))
    else .error "assert_eq failed on the k-tree edge count"

/-- Embedding of the retry loop of
generate_partial_k_tree_with_guaranteed_treewidth (lines 19 to 36),
with explicit fuel: the outer none means the loop did not return within
fuel rounds; some embeds the returned value, with Except capturing the
panics reachable inside one round. -/
def genGuaranteedLoop (rng : Nat → Nat) (k n p : Nat) :
    Nat → Nat → Option (Except String (Option SGraph))
  | 0, pos => none
  | fuel + 1, pos =>
    match generatePartialKTree rng pos k n p with
    | .error e => some (.error e)
    | .ok none => some (.ok none)
    | .ok (some (g, pos2)) =>
      match maximumMinimumDegreePlus g with
      | .error e => some (.error e)
      | .ok m => if m = k then some (.ok (some g)) else genGuaranteedLoop rng k n p fuel pos2

/-- Embedding of generate_partial_k_tree_with_guaranteed_treewidth. -/
def generatePartialKTreeWithGuaranteedTreewidth (rng : Nat → Nat) (k n p fuel pos : Nat) :
    Option (Except String (Option SGraph)) :=
  genGuaranteedLoop rng k n p fuel pos

/-! Edge-count facts for the generators (claims about generate_k_tree and
generate_partial_k_tree). -/

theorem length_filter_ne_of_nodup {l : List Nat} {a : Nat} (hn : l.Nodup) (ha : a ∈ l) :
    (l.filter fun x => decide (x ≠ a)).length = l.length - 1 := by
  induction l with
  | nil => cases ha
  | cons x xs ih =>
    by_cases hxa : x = a
    · subst hxa
      have hx : x ∉ xs := (List.nodup_cons.mp hn).1
      rw [List.filter_cons_of_neg (by simp)]
      rw [List.filter_eq_self.mpr]
      · simp
      · intro y hy
        simp only [decide_eq_true_iff]
        intro hcon; exact hx (hcon ▸ hy)
    · have ha2 : a ∈ xs := by
        rcases List.mem_cons.mp ha with h | h
        · exact absurd h.symm hxa
        · exact h
      rw [List.filter_cons_of_pos (by simp [hxa])]
      simp only [List.length_cons]
      rw [ih (List.nodup_cons.mp hn).2 ha2]
      have : 1 ≤ xs.length := List.length_pos.mpr (List.ne_nil_of_mem ha2)
      omega

theorem foldl_addEdge_edges (v : Nat) :
    ∀ (l : List Nat) (g : SGraph),
      (l.foldl (fun h x => h.addEdge v x) g).edges.length = g.edges.length + l.length
  | [], g => rfl
  | x :: xs, g => by
    simp only [List.foldl]
    rw [foldl_addEdge_edges v xs (g.addEdge v x)]
    simp only [SGraph.addEdge, List.length_append, List.length_cons, List.length_nil]
    omega

theorem foldl_addEdge_nodes (v : Nat) :
    ∀ (l : List Nat) (g : SGraph),
      (l.foldl (fun h x => h.addEdge v x) g).nodes = g.nodes
  | [], g => rfl
  | x :: xs, g => by
    simp only [List.foldl]
    rw [foldl_addEdge_nodes v xs (g.addEdge v x)]
    rfl

/-- Invariant of the k-tree growth loop: every live clique keeps exactly
k distinct vertex indices of the current graph, so every step adds
exactly k edges and one node. -/
theorem kTreeLoop_spec (rng : Nat → Nat) (k : Nat) :
    ∀ (steps pos i : Nat) (g : SGraph) (cliques : List (List Nat)),
      cliques ≠ [] →
      (∀ c ∈ cliques, c.length = k ∧ c.Nodup ∧ ∀ x ∈ c, x < g.nodes.length) →
      (kTreeLoop rng steps pos g cliques i).1.edges.length = g.edges.length + steps * k ∧
        (kTreeLoop rng steps pos g cliques i).1.nodes.length = g.nodes.length + steps := by
  intro steps
  induction steps with
  | zero => intro pos i g cliques hne hinv; simp [kTreeLoop]
  | succ m ih =>
    intro pos i g cliques hne hinv
    simp only [kTreeLoop]
    have hlen : 0 < cliques.length := List.length_pos.mpr hne
    have hidx : rng pos % cliques.length < cliques.length := Nat.mod_lt _ hlen
    have hchosen : cliques.getD (rng pos % cliques.length) [] ∈ cliques := by
      rw [List.getD_eq_getElem _ _ hidx]
      exact List.getElem_mem _
    obtain ⟨hck, hcnd, hcb⟩ := hinv _ hchosen
    set chosen := cliques.getD (rng pos % cliques.length) [] with hchdef
    set newV := (g.addNode i).2 with hnv
    set g2 := chosen.foldl (fun h x => h.addEdge newV x) (g.addNode i).1 with hg2
    have hg2e : g2.edges.length = g.edges.length + k := by
      rw [hg2, foldl_addEdge_edges, ← hck]
      rfl
    have hg2n : g2.nodes = g.nodes ++ [i] := by
      rw [hg2, foldl_addEdge_nodes]
      rfl
    have hg2nl : g2.nodes.length = g.nodes.length + 1 := by
      rw [hg2n]; simp
    have hnewV : newV = g.nodes.length := rfl
    have hinv2 : ∀ c ∈ cliques ++ chosen.map (fun old =>
        (chosen.filter fun x => decide (x ≠ old)) ++ [newV]),
        c.length = k ∧ c.Nodup ∧ ∀ x ∈ c, x < g2.nodes.length := by
      intro c hc
      rcases List.mem_append.mp hc with hc | hc
      · obtain ⟨h1, h2, h3⟩ := hinv c hc
        exact ⟨h1, h2, fun x hx => by rw [hg2nl]; exact Nat.lt_succ_of_lt (h3 x hx)⟩
      · obtain ⟨old, hold, rfl⟩ := List.mem_map.mp hc
        have hfl : (chosen.filter fun x => decide (x ≠ old)).length = k - 1 := by
          rw [length_filter_ne_of_nodup hcnd hold, hck]
        have hklen : 1 ≤ k := by
          rw [← hck]; exact List.length_pos.mpr (List.ne_nil_of_mem hold)
        refine ⟨?_, ?_, ?_⟩
        · simp only [List.length_append, hfl, List.length_cons, List.length_nil]
          omega
        · have hsub : (chosen.filter fun x => decide (x ≠ old)).Nodup :=
            hcnd.filter _
          have hnewm : newV ∉ chosen.filter fun x => decide (x ≠ old) := by
            intro hmem
            have := hcb _ (List.mem_of_mem_filter hmem)
            rw [hnewV] at this; omega
          refine List.Nodup.append hsub (List.nodup_singleton _) ?_
          intro a ha hb
          simp only [List.mem_singleton] at hb
          exact hnewm (hb ▸ ha)
        · intro x hx
          rcases List.mem_append.mp hx with hx | hx
          · have := hcb _ (List.mem_of_mem_filter hx)
            rw [hg2nl]; omega
          · simp only [List.mem_singleton] at hx
            rw [hx, hnewV, hg2nl]; omega
    have hne2 : cliques ++ chosen.map (fun old =>
        (chosen.filter fun x => decide (x ≠ old)) ++ [newV]) ≠ [] := by
      simp [hne]
    obtain ⟨he, hn⟩ := ih (pos + 1) (i + 1) g2 _ hne2 hinv2
    constructor
    · rw [he, hg2e]; ring
    · rw [hn, hg2nl]; omega

theorem listSumMapRange (f : Nat → Nat) (k : Nat) :
    ((List.range k).map f).sum = ∑ i ∈ Finset.range k, f i := by
  induction k with
  | zero => simp
  | succ n ih =>
    rw [List.range_succ, List.map_append, List.sum_append, Finset.sum_range_succ, ih]
    simp

theorem generateCompleteGraph_edgeCount (k : Nat) :
    (generateCompleteGraph k).edges.length = k * (k - 1) / 2 := by
  simp only [generateCompleteGraph]
  rw [List.length_flatMap]
  have h1 : (List.map (List.length ∘ fun i => List.map (fun j => (⟨i, j⟩ : SEdge))
      ((List.range k).drop (i + 1))) (List.range k)).sum
      = ((List.range k).map (fun i => k - 1 - i)).sum := by
    congr 1
    apply List.map_congr_left
    intro i hi
    simp only [Function.comp_apply, List.length_map, List.length_drop, List.length_range]
    omega
  rw [h1, listSumMapRange]
  rw [show (fun i => k - 1 - i) = (fun i => (fun j => j) (k - 1 - i)) from rfl]
  rw [Finset.sum_range_reflect (fun i => i) k]
  exact Finset.sum_range_id k

/-- Claim C6: for every k and n with k not exceeding n, generate_k_tree
returns a graph with exactly k (k - 1) / 2 + k (n - k) edges, whatever
random stream is supplied. -/
theorem generateKTree_edgeCount (rng : Nat → Nat) (pos k n : Nat) (hkn : k ≤ n) :
    Option.map (fun r => r.1.edges.length) (generateKTree rng pos k n)
      = some (k * (k - 1) / 2 + k * (n - k)) := by
  simp only [generateKTree]
  rw [if_neg (by omega)]
  have hnodes : (generateCompleteGraph k).nodes = List.range k := rfl
  have hinv : ∀ c ∈ [(generateCompleteGraph k).nodeIdentifiers],
      c.length = k ∧ c.Nodup ∧ ∀ x ∈ c, x < (generateCompleteGraph k).nodes.length := by
    intro c hc
    simp only [List.mem_singleton] at hc
    subst hc
    simp only [SGraph.nodeIdentifiers, hnodes, List.length_range]
    exact ⟨by simp, List.nodup_range _, fun x hx => List.mem_range.mp hx⟩
  obtain ⟨he, _⟩ := kTreeLoop_spec rng k (n - k) pos k (generateCompleteGraph k)
    [(generateCompleteGraph k).nodeIdentifiers] (by simp) hinv
  rw [Option.map_some', Option.some.injEq, he, generateCompleteGraph_edgeCount]
  ring

/-- Witness for claim C6 at k = 2, n = 4. -/
theorem generateKTree_edgeCount_witness :
    2 ≤ 4 ∧ Option.map (fun r => r.1.edges.length) (generateKTree (fun _ => 0) 0 2 4)
      = some (2 * (2 - 1) / 2 + 2 * (4 - 2)) :=
  ⟨by decide, generateKTree_edgeCount (fun _ => 0) 0 2 4 (by decide)⟩

/-- Claim C7 is violated by the code: for k = 1, n = 3, p = 100 the
generated k-tree has 2 edges and the documented result has
2 - 2 * 100 / 100 = 0 edges, but the removal loop removes edge index 0
first (swap-moving edge index 1 into slot 0), so the second removal
targets a stale index and is a no-op: one edge remains. -/
theorem generatePartialKTree_staleEdgeIndex :
    generatePartialKTree (fun _ => 0) 0 1 3 100
      = .ok (some ({ nodes := [0, 1, 2], edges := [⟨2, 0⟩] }, 2)) ∧
    ({ nodes := [0, 1, 2], edges := [⟨2, 0⟩] } : SGraph).edges.length ≠
      (1 * (1 - 1) / 2 + 1 * (3 - 1)) - (1 * (1 - 1) / 2 + 1 * (3 - 1)) * 100 / 100 :=
  ⟨by rfl, by decide⟩

theorem generatePartialKTree_eq_none_iff (rng : Nat → Nat) (pos k n p : Nat) :
    generatePartialKTree rng pos k n p = .ok none ↔ n < k := by
  by_cases h : n < k
  · simp [generatePartialKTree, generateKTree, h]
  · simp only [generatePartialKTree, generateKTree, if_neg h]
    constructor
    · intro hc
      split at hc
      · simp at hc
      · simp at hc
    · intro hc; exact absurd hc h

theorem genGuaranteedLoop_spec (rng : Nat → Nat) (k n p : Nat) :
    ∀ (fuel pos : Nat), 1 ≤ fuel →
      ((genGuaranteedLoop rng k n p fuel pos = some (.ok none)) ↔ n < k) ∧
      (∀ g, genGuaranteedLoop rng k n p fuel pos = some (.ok (some g)) →
        maximumMinimumDegreePlus g = .ok k) := by
  intro fuel
  induction fuel with
  | zero => intro pos h; omega
  | succ m ih =>
    intro pos _
    cases hres : generatePartialKTree rng pos k n p with
    | error e =>
      have hnk : ¬ n < k := by
        intro hc
        rw [(generatePartialKTree_eq_none_iff rng pos k n p).mpr hc] at hres
        cases hres
      refine ⟨⟨fun hc => ?_, fun hc => absurd hc hnk⟩, fun g hg => ?_⟩
      · simp [genGuaranteedLoop, hres] at hc
      · simp [genGuaranteedLoop, hres] at hg
    | ok og =>
      cases og with
      | none =>
        have hnk : n < k := (generatePartialKTree_eq_none_iff rng pos k n p).mp hres
        refine ⟨⟨fun hc => hnk, fun hc => ?_⟩, fun g hg => ?_⟩
        · simp [genGuaranteedLoop, hres]
        · simp [genGuaranteedLoop, hres] at hg
      | some gp =>
        have hnk : ¬ n < k := by
          intro hc
          rw [(generatePartialKTree_eq_none_iff rng pos k n p).mpr hc] at hres
          cases hres
        obtain ⟨g0, pos2⟩ := gp
        cases hm : maximumMinimumDegreePlus g0 with
        | error e =>
          refine ⟨⟨fun hc => ?_, fun hc => absurd hc hnk⟩, fun g hg => ?_⟩
          · simp [genGuaranteedLoop, hres, hm] at hc
          · simp [genGuaranteedLoop, hres, hm] at hg
        | ok w =>
          by_cases hw : w = k
          · refine ⟨⟨fun hc => ?_, fun hc => absurd hc hnk⟩, fun g hg => ?_⟩
            · simp [genGuaranteedLoop, hres, hm, hw] at hc
            · simp only [genGuaranteedLoop, hres, hm, hw, if_pos] at hg
              simp only [Option.some.injEq, Except.ok.injEq] at hg
              rw [← hg, hm, hw]
          · have hstep : genGuaranteedLoop rng k n p (m + 1) pos
                = genGuaranteedLoop rng k n p m pos2 := by
              simp [genGuaranteedLoop, hres, hm, hw]
            cases m with
            | zero =>
              refine ⟨⟨fun hc => ?_, fun hc => absurd hc hnk⟩, fun g hg => ?_⟩
              · rw [hstep] at hc; simp [genGuaranteedLoop] at hc
              · rw [hstep] at hg; simp [genGuaranteedLoop] at hg
            | succ m2 =>
              obtain ⟨ih1, ih2⟩ := ih pos2 (by omega)
              refine ⟨⟨fun hc => ih1.mp (by rw [← hstep]; exact hc),
                fun hc => absurd hc hnk⟩, fun g hg => ih2 g (by rw [← hstep]; exact hg)⟩

/-- Claim C5: whenever the retry loop of
generate_partial_k_tree_with_guaranteed_treewidth returns a value within
the given fuel, the value is none exactly when k exceeds n, and any
returned graph has maximum_minimum_degree_plus exactly k. -/
theorem generatePartialKTreeWithGuaranteedTreewidth_spec (rng : Nat → Nat)
    (k n p fuel pos : Nat) (hf : 1 ≤ fuel) :
    ((generatePartialKTreeWithGuaranteedTreewidth rng k n p fuel pos = some (.ok none)) ↔ n < k) ∧
    (∀ g, generatePartialKTreeWithGuaranteedTreewidth rng k n p fuel pos = some (.ok (some g)) →
      maximumMinimumDegreePlus g = .ok k) :=
  genGuaranteedLoop_spec rng k n p fuel pos hf

/-- Witness for claim C5 at k = 3, n = 2 (k exceeds n, so none). -/
theorem generatePartialKTreeWithGuaranteedTreewidth_spec_witness :
    (1 : Nat) ≤ 1 ∧
      generatePartialKTreeWithGuaranteedTreewidth (fun _ => 0) 3 2 5 1 0 = some (.ok none) :=
  ⟨le_refl 1,
    (generatePartialKTreeWithGuaranteedTreewidth_spec (fun _ => 0) 3 2 5 1 0
      (le_refl 1)).1.mpr (by decide)⟩

/-! Machinery for claim C10: maximum_minimum_degree_plus evaluates to
k - 1 on the complete graph with k vertices. -/

/-- Number of edges of the graph joining the two given vertices. -/
def edgeBetween (g : SGraph) (a b : Nat) : Nat :=
  g.edges.countP fun e => decide ((e.src = a ∧ e.tgt = b) ∨ (e.src = b ∧ e.tgt = a))

/-- The graph is the simple complete graph on m vertices: m nodes, every
edge an in-range non-loop, and exactly one edge joining every pair of
distinct vertices. -/
structure IsCompleteSimple (g : SGraph) (m : Nat) : Prop where
  nodesLen : g.nodes.length = m
  endpoints : ∀ e ∈ g.edges, e.src < m ∧ e.tgt < m ∧ e.src ≠ e.tgt
  once : ∀ i j, i < m → j < m → i ≠ j → edgeBetween g i j = 1

theorem countP_decide_eq_count (l : List Nat) (a : Nat) :
    (l.countP fun x => decide (x = a)) = l.count a := by
  induction l with
  | nil => rfl
  | cons x xs ih =>
    rw [List.countP_cons, List.count_cons, ih]
    by_cases h : x = a <;> simp [h]

theorem countP_or_split (l : List SEdge) (p q : SEdge → Prop)
    [DecidablePred p] [DecidablePred q]
    (h : ∀ e ∈ l, ¬ (p e ∧ q e)) :
    (l.countP fun e => decide (p e ∨ q e))
      = (l.countP fun e => decide (p e)) + (l.countP fun e => decide (q e)) := by
  induction l with
  | nil => rfl
  | cons x xs ih =>
    have hx := h x (List.mem_cons_self _ _)
    have ihx := ih fun e he => h e (List.mem_cons_of_mem _ he)
    by_cases hp : p x
    · have hq : ¬ q x := fun hq => hx ⟨hp, hq⟩
      rw [List.countP_cons_of_pos _ _ (by simp [hp]),
        List.countP_cons_of_pos _ _ (by simp [hp]),
        List.countP_cons_of_neg _ _ (by simp [hq]), ihx]
      omega
    · by_cases hq : q x
      · rw [List.countP_cons_of_pos _ _ (by simp [hq]),
          List.countP_cons_of_neg _ _ (by simp [hp]),
          List.countP_cons_of_pos _ _ (by simp [hq]), ihx]
        omega
      · rw [List.countP_cons_of_neg _ _ (by simp [hp, hq]),
          List.countP_cons_of_neg _ _ (by simp [hp]),
          List.countP_cons_of_neg _ _ (by simp [hq]), ihx]

theorem countP_reverse (l : List SEdge) (p : SEdge → Bool) :
    l.reverse.countP p = l.countP p := by
  induction l with
  | nil => rfl
  | cons x xs ih =>
    rw [List.reverse_cons, List.countP_append, ih, List.countP_cons]
    simp [List.countP_cons]

theorem count_filterMap_ite (l : List SEdge) (p : SEdge → Prop) [DecidablePred p]
    (f : SEdge → Nat) (x : Nat) :
    ((l.filterMap fun e => if p e then some (f e) else none).count x)
      = l.countP fun e => decide (p e ∧ f e = x) := by
  induction l with
  | nil => rfl
  | cons e es ih =>
    by_cases hp : p e
    · simp only [List.filterMap_cons, if_pos hp]
      rw [List.count_cons, ih, List.countP_cons]
      by_cases hf : f e = x <;> simp [hp, hf]
    · simp only [List.filterMap_cons, if_neg hp]
      rw [ih, List.countP_cons_of_neg _ _ (by simp [hp])]

/-- Multiplicity of x in the petgraph neighbour list of v, as edge
counts. -/
theorem count_neighbors (g : SGraph) (v x : Nat) :
    (g.neighbors v).count x
      = (g.edges.countP fun e => decide (e.src = v ∧ e.tgt = x))
        + (g.edges.countP fun e => decide (e.tgt = v ∧ e.src = x)) := by
  simp only [SGraph.neighbors, List.count_append]
  rw [count_filterMap_ite g.edges.reverse (fun e => e.src = v) SEdge.tgt x,
    count_filterMap_ite g.edges.reverse (fun e => e.tgt = v) SEdge.src x]
  rw [countP_reverse, countP_reverse]

theorem mem_neighbors_iff (g : SGraph) (v x : Nat) :
    x ∈ g.neighbors v
      ↔ ∃ e ∈ g.edges, (e.src = v ∧ e.tgt = x) ∨ (e.tgt = v ∧ e.src = x) := by
  simp only [SGraph.neighbors, List.mem_append, List.mem_filterMap, List.mem_reverse]
  constructor
  · rintro (⟨e, he, hopt⟩ | ⟨e, he, hopt⟩)
    · by_cases hs : e.src = v
      · rw [if_pos hs] at hopt
        exact ⟨e, he, Or.inl ⟨hs, Option.some.inj hopt⟩⟩
      · rw [if_neg hs] at hopt; cases hopt
    · by_cases hs : e.tgt = v
      · rw [if_pos hs] at hopt
        exact ⟨e, he, Or.inr ⟨hs, Option.some.inj hopt⟩⟩
      · rw [if_neg hs] at hopt; cases hopt
  · rintro ⟨e, he, ⟨h1, h2⟩ | ⟨h1, h2⟩⟩
    · exact Or.inl ⟨e, he, by simp [h1, h2]⟩
    · exact Or.inr ⟨e, he, by simp [h1, h2]⟩

theorem mem_neighbors_containsEdge {g : SGraph} {v x : Nat}
    (h : x ∈ g.neighbors v) : g.containsEdge v x = true := by
  obtain ⟨e, he, hcase⟩ := (mem_neighbors_iff g v x).mp h
  simp only [SGraph.containsEdge, List.any_eq_true]
  refine ⟨e, he, ?_⟩
  rcases hcase with ⟨h1, h2⟩ | ⟨h1, h2⟩
  · simp [h1, h2]
  · simp [h1, h2]

theorem count_neighbors_complete {g : SGraph} {m : Nat}
    (h : IsCompleteSimple g m) (v x : Nat) (hv : v < m) :
    (g.neighbors v).count x = if x ≠ v ∧ x < m then 1 else 0 := by
  rw [count_neighbors]
  by_cases hxv : x = v
  · subst hxv
    have h1 : (g.edges.countP fun e => decide (e.src = x ∧ e.tgt = x)) = 0 :=
      List.countP_eq_zero.mpr (by
        intro e he
        have := (h.endpoints e he).2.2
        simp only [decide_eq_true_iff]
        rintro ⟨h1, h2⟩; exact this (h1.trans h2.symm))
    have h2 : (g.edges.countP fun e => decide (e.tgt = x ∧ e.src = x)) = 0 :=
      List.countP_eq_zero.mpr (by
        intro e he
        have := (h.endpoints e he).2.2
        simp only [decide_eq_true_iff]
        rintro ⟨h1, h2⟩; exact this (h2.trans h1.symm))
    rw [h1, h2]; simp
  · by_cases hxm : x < m
    · have hsplit := countP_or_split g.edges
        (fun e => e.src = v ∧ e.tgt = x) (fun e => e.tgt = v ∧ e.src = x)
        (by
          rintro e he ⟨⟨h1, h2⟩, ⟨h3, h4⟩⟩
          exact hxv (h2 ▸ h3 ▸ rfl))
      have honce := h.once v x hv hxm (fun hc => hxv hc.symm)
      rw [edgeBetween] at honce
      have hcongr : (g.edges.countP fun e =>
          decide ((e.src = v ∧ e.tgt = x) ∨ (e.tgt = v ∧ e.src = x)))
          = g.edges.countP fun e =>
            decide ((e.src = v ∧ e.tgt = x) ∨ (e.src = x ∧ e.tgt = v)) := by
        apply List.countP_congr
        intro e he
        simp only [decide_eq_true_iff, eq_iff_iff]
        tauto
      rw [← hsplit, hcongr, honce]
      simp [hxv, hxm]
    · have h1 : (g.edges.countP fun e => decide (e.src = v ∧ e.tgt = x)) = 0 :=
        List.countP_eq_zero.mpr (by
          intro e he
          have := (h.endpoints e he).2.1
          simp only [decide_eq_true_iff]
          rintro ⟨hh1, hh2⟩; exact hxm (hh2 ▸ this))
      have h2 : (g.edges.countP fun e => decide (e.tgt = v ∧ e.src = x)) = 0 :=
        List.countP_eq_zero.mpr (by
          intro e he
          have := (h.endpoints e he).1
          simp only [decide_eq_true_iff]
          rintro ⟨hh1, hh2⟩; exact hxm (hh2 ▸ this))
      rw [h1, h2]; simp [hxm]

theorem neighbors_nodup_complete {g : SGraph} {m : Nat}
    (h : IsCompleteSimple g m) (v : Nat) (hv : v < m) :
    (g.neighbors v).Nodup := by
  rw [List.nodup_iff_count_le_one]
  intro x
  rw [count_neighbors_complete h v x hv]
  split <;> omega

theorem mem_neighbors_complete {g : SGraph} {m : Nat}
    (h : IsCompleteSimple g m) (v x : Nat) (hv : v < m) :
    x ∈ g.neighbors v ↔ x ≠ v ∧ x < m := by
  rw [← List.count_pos_iff, count_neighbors_complete h v x hv]
  by_cases hc : x ≠ v ∧ x < m
  · simp only [if_pos hc]
    simp [hc]
  · simp only [if_neg hc]
    simp only [Nat.lt_irrefl, false_iff]
    exact hc

theorem neighbors_length_complete {g : SGraph} {m : Nat}
    (h : IsCompleteSimple g m) (v : Nat) (hv : v < m) :
    (g.neighbors v).length = m - 1 := by
  have hnd := neighbors_nodup_complete h v hv
  rw [← List.toFinset_card_of_nodup hnd]
  have : (g.neighbors v).toFinset = (Finset.range m).erase v := by
    ext x
    rw [List.mem_toFinset, mem_neighbors_complete h v x hv,
      Finset.mem_erase, Finset.mem_range]
  rw [this, Finset.card_erase_of_mem (Finset.mem_range.mpr hv), Finset.card_range]

theorem mem_hsInsert (l : List Nat) (x y : Nat) :
    y ∈ hsInsert l x ↔ y ∈ l ∨ y = x := by
  unfold hsInsert
  by_cases h : x ∈ l
  · rw [if_pos h]
    constructor
    · exact Or.inl
    · rintro (hy | rfl)
      · exact hy
      · exact h
  · rw [if_neg h]; simp

theorem hsInsert_nodup {l : List Nat} (x : Nat) (h : l.Nodup) :
    (hsInsert l x).Nodup := by
  unfold hsInsert
  by_cases hm : x ∈ l
  · rw [if_pos hm]; exact h
  · rw [if_neg hm]
    refine List.Nodup.append h (List.nodup_singleton _) ?_
    intro b hb hbx
    simp only [List.mem_singleton] at hbx
    exact hm (hbx ▸ hb)

theorem foldl_hsInsert_mem :
    ∀ (l acc : List Nat) (y : Nat), y ∈ l.foldl hsInsert acc ↔ y ∈ acc ∨ y ∈ l
  | [], acc, y => by simp
  | x :: xs, acc, y => by
    rw [List.foldl_cons, foldl_hsInsert_mem xs (hsInsert acc x) y, mem_hsInsert]
    simp only [List.mem_cons]
    tauto

theorem foldl_hsInsert_nodup :
    ∀ (l acc : List Nat), acc.Nodup → (l.foldl hsInsert acc).Nodup
  | [], acc, h => h
  | x :: xs, acc, h => by
    rw [List.foldl_cons]
    exact foldl_hsInsert_nodup xs (hsInsert acc x) (hsInsert_nodup x h)

theorem hsFromList_mem (l : List Nat) (y : Nat) : y ∈ hsFromList l ↔ y ∈ l := by
  unfold hsFromList
  rw [foldl_hsInsert_mem]
  simp

theorem hsFromList_nodup (l : List Nat) : (hsFromList l).Nodup :=
  foldl_hsInsert_nodup l [] (List.nodup_nil)

theorem foldl_addEdge_eq (v : Nat) :
    ∀ (l : List Nat) (g : SGraph),
      l.foldl (fun h x => h.addEdge v x) g
        = { nodes := g.nodes, edges := g.edges ++ l.map fun x => ⟨v, x⟩ }
  | [], g => by simp
  | x :: xs, g => by
    rw [List.foldl_cons, foldl_addEdge_eq v xs]
    simp [SGraph.addEdge]

theorem removeNode_eq (g : SGraph) (a : Nat) (ha : a < g.nodes.length) :
    g.removeNode a
      = { nodes := (g.nodes.set a (g.nodes.getD (g.nodes.length - 1) 0)).dropLast
          edges := (g.edges.filter fun e => decide (¬ e.touches a)).map fun e =>
            ⟨if e.src = g.nodes.length - 1 then a else e.src,
             if e.tgt = g.nodes.length - 1 then a else e.tgt⟩ } := by
  unfold SGraph.removeNode
  rw [if_pos ha]

/-- Transfer of the unordered-pair edge matcher through the swap-remove
renaming of removeNode: counting renamed filtered edges matching (i, j)
equals counting original edges matching the preimage pair. -/
theorem countP_map_filter_matcher (edges : List SEdge) (a n i j : Nat)
    (hend : ∀ e ∈ edges, e.src < n + 1 ∧ e.tgt < n + 1 ∧ e.src ≠ e.tgt)
    (ha : a < n + 1) (hi : i < n) (hj : j < n) :
    (((edges.filter fun e => decide (¬ e.touches a)).map fun e =>
        (⟨if e.src = n then a else e.src, if e.tgt = n then a else e.tgt⟩ : SEdge)).countP
      fun e => decide ((e.src = i ∧ e.tgt = j) ∨ (e.src = j ∧ e.tgt = i)))
    = edges.countP fun e =>
        decide ((e.src = (if i = a then n else i) ∧ e.tgt = (if j = a then n else j)) ∨
          (e.src = (if j = a then n else j) ∧ e.tgt = (if i = a then n else i))) := by
  induction edges with
  | nil => rfl
  | cons e es ih =>
    obtain ⟨hs, ht, hst⟩ := hend e (List.mem_cons_self _ _)
    have hrec := ih fun e2 he2 => hend e2 (List.mem_cons_of_mem _ he2)
    by_cases hP : e.touches a
    · rw [List.filter_cons_of_neg (by simp [hP])]
      rw [hrec, List.countP_cons_of_neg]
      rw [SEdge.touches] at hP
      simp only [decide_eq_true_iff]
      rcases hP with hc | hc <;> · split_ifs <;> omega
    · rw [List.filter_cons_of_pos (by simp [hP])]
      rw [List.map_cons, List.countP_cons, hrec, List.countP_cons]
      congr 1
      rw [SEdge.touches] at hP
      push_neg at hP
      obtain ⟨hsa, hta⟩ := hP
      have hd : (decide ((((⟨if e.src = n then a else e.src,
            if e.tgt = n then a else e.tgt⟩ : SEdge)).src = i ∧
            ((⟨if e.src = n then a else e.src,
            if e.tgt = n then a else e.tgt⟩ : SEdge)).tgt = j) ∨
            (((⟨if e.src = n then a else e.src,
            if e.tgt = n then a else e.tgt⟩ : SEdge)).src = j ∧
            ((⟨if e.src = n then a else e.src,
            if e.tgt = n then a else e.tgt⟩ : SEdge)).tgt = i)))
          = decide ((e.src = (if i = a then n else i) ∧
              e.tgt = (if j = a then n else j)) ∨
            (e.src = (if j = a then n else j) ∧
              e.tgt = (if i = a then n else i))) := by
        rw [decide_eq_decide]
        dsimp only
        split_ifs <;> omega
      rw [hd]

theorem removeNode_complete {g : SGraph} {n : Nat} (h : IsCompleteSimple g (n + 1))
    {a : Nat} (ha : a < n + 1) : IsCompleteSimple (g.removeNode a) n := by
  have hlen : g.nodes.length = n + 1 := h.nodesLen
  rw [removeNode_eq g a (by omega), hlen]
  simp only [Nat.add_sub_cancel]
  refine ⟨?_, ?_, ?_⟩
  · simp [hlen]
  · intro e2 he2
    simp only [List.mem_map, List.mem_filter] at he2
    obtain ⟨e, ⟨he, hPd⟩, rfl⟩ := he2
    have hP : ¬ e.touches a := of_decide_eq_true hPd
    rw [SEdge.touches] at hP
    push_neg at hP
    obtain ⟨hsa, hta⟩ := hP
    obtain ⟨hs, ht, hst⟩ := h.endpoints e he
    dsimp only
    refine ⟨?_, ?_, ?_⟩ <;> split_ifs <;> omega
  · intro i j hi hj hij
    show (((g.edges.filter fun e => decide (¬ e.touches a)).map fun e =>
        (⟨if e.src = n then a else e.src, if e.tgt = n then a else e.tgt⟩ : SEdge)).countP
      fun e => decide ((e.src = i ∧ e.tgt = j) ∨ (e.src = j ∧ e.tgt = i))) = 1
    rw [countP_map_filter_matcher g.edges a n i j h.endpoints ha hi hj]
    exact h.once (if i = a then n else i) (if j = a then n else j)
      (by split_ifs <;> omega) (by split_ifs <;> omega) (by split_ifs <;> omega)

theorem countP_map_pair_src (toAdd : List Nat) (L i j : Nat) (hLi : L = i) (hLj : L ≠ j) :
    ((toAdd.map fun x => (⟨L, x⟩ : SEdge)).countP fun e =>
      decide ((e.src = i ∧ e.tgt = j) ∨ (e.src = j ∧ e.tgt = i)))
    = toAdd.countP fun x => decide (x = j) := by
  induction toAdd with
  | nil => rfl
  | cons x xs ih =>
    rw [List.map_cons, List.countP_cons, List.countP_cons, ih]
    congr 1
    have hd : (decide (((⟨L, x⟩ : SEdge).src = i ∧ (⟨L, x⟩ : SEdge).tgt = j) ∨
        ((⟨L, x⟩ : SEdge).src = j ∧ (⟨L, x⟩ : SEdge).tgt = i)))
        = decide (x = j) := by
      rw [decide_eq_decide]
      dsimp only
      omega
    rw [hd]

theorem countP_map_pair_tgt (toAdd : List Nat) (L i j : Nat) (hLj : L = j) (hLi : L ≠ i) :
    ((toAdd.map fun x => (⟨L, x⟩ : SEdge)).countP fun e =>
      decide ((e.src = i ∧ e.tgt = j) ∨ (e.src = j ∧ e.tgt = i)))
    = toAdd.countP fun x => decide (x = i) := by
  induction toAdd with
  | nil => rfl
  | cons x xs ih =>
    rw [List.map_cons, List.countP_cons, List.countP_cons, ih]
    congr 1
    have hd : (decide (((⟨L, x⟩ : SEdge).src = i ∧ (⟨L, x⟩ : SEdge).tgt = j) ∨
        ((⟨L, x⟩ : SEdge).src = j ∧ (⟨L, x⟩ : SEdge).tgt = i)))
        = decide (x = i) := by
      rw [decide_eq_decide]
      dsimp only
      omega
    rw [hd]

theorem countP_map_pair_zero (toAdd : List Nat) (L i j : Nat) (hLi : L ≠ i) (hLj : L ≠ j) :
    ((toAdd.map fun x => (⟨L, x⟩ : SEdge)).countP fun e =>
      decide ((e.src = i ∧ e.tgt = j) ∨ (e.src = j ∧ e.tgt = i))) = 0 := by
  apply List.countP_eq_zero.mpr
  intro e he
  obtain ⟨x, hx, rfl⟩ := List.mem_map.mp he
  simp only [decide_eq_true_iff]
  omega

/-- Intermediate graph of contract_edge after the new node and its star
of edges have been added. -/
def contractMid (g : SGraph) (v w : Nat) : SGraph :=
  { nodes := g.nodes ++ [0]
    edges := g.edges ++ (hsFromList (g.neighbors v ++ g.neighbors w)).map
      fun x => ⟨g.nodes.length, x⟩ }

theorem contractEdge_eq (g : SGraph) (v w : Nat) (hce : g.containsEdge v w = true) :
    contractEdge g v w = ((contractMid g v w).removeNode v).removeNode w := by
  simp only [contractEdge, hce, if_true]
  rw [foldl_addEdge_eq]
  rfl

theorem contractEdge_complete {g : SGraph} {m : Nat} (h : IsCompleteSimple g m)
    (hm : 2 ≤ m) {v w : Nat} (hv : v < m) (hw : w ∈ g.neighbors v) :
    IsCompleteSimple (contractEdge g v w) (m - 1) := by
  have hce : g.containsEdge v w = true := mem_neighbors_containsEdge hw
  obtain ⟨hwv, hwm⟩ := (mem_neighbors_complete h v w hv).mp hw
  have hlen : g.nodes.length = m := h.nodesLen
  rw [contractEdge_eq g v w hce]
  have htoAddMem : ∀ x, x ∈ hsFromList (g.neighbors v ++ g.neighbors w) ↔ x < m := by
    intro x
    rw [hsFromList_mem, List.mem_append, mem_neighbors_complete h v x hv,
      mem_neighbors_complete h w x hwm]
    constructor
    · rintro (⟨_, hx⟩ | ⟨_, hx⟩) <;> exact hx
    · intro hx
      by_cases hxv : x = v
      · right; exact ⟨by omega, hx⟩
      · left; exact ⟨hxv, hx⟩
  have htoAddNd := hsFromList_nodup (g.neighbors v ++ g.neighbors w)
  have hG2 : IsCompleteSimple (contractMid g v w) (m + 1) := by
    refine ⟨by simp [contractMid, hlen], ?_, ?_⟩
    · intro e he
      simp only [contractMid] at he
      rcases List.mem_append.mp he with he | he
      · obtain ⟨h1, h2, h3⟩ := h.endpoints e he
        exact ⟨by omega, by omega, h3⟩
      · obtain ⟨x, hx, rfl⟩ := List.mem_map.mp he
        have hxm := (htoAddMem x).mp hx
        dsimp only
        refine ⟨by omega, by omega, by omega⟩
    · intro i j hi hj hij
      show ((contractMid g v w).edges).countP (fun e =>
          decide ((e.src = i ∧ e.tgt = j) ∨ (e.src = j ∧ e.tgt = i))) = 1
      simp only [contractMid]
      rw [List.countP_append]
      by_cases hi2 : i < m
      · by_cases hj2 : j < m
        · rw [countP_map_pair_zero _ _ _ _ (by omega) (by omega)]
          have := h.once i j hi2 hj2 hij
          rw [edgeBetween] at this
          omega
        · rw [countP_map_pair_tgt _ _ _ _ (by omega) (by omega)]
          have hz : g.edges.countP (fun e =>
              decide ((e.src = i ∧ e.tgt = j) ∨ (e.src = j ∧ e.tgt = i))) = 0 := by
            apply List.countP_eq_zero.mpr
            intro e he
            obtain ⟨h1, h2, h3⟩ := h.endpoints e he
            simp only [decide_eq_true_iff]
            omega
          rw [hz, countP_decide_eq_count,
            List.count_eq_one_of_mem htoAddNd ((htoAddMem i).mpr hi2)]
      · have him : i = m := by omega
        have hj2 : j < m := by omega
        rw [countP_map_pair_src _ _ _ _ (by omega) (by omega)]
        have hz : g.edges.countP (fun e =>
            decide ((e.src = i ∧ e.tgt = j) ∨ (e.src = j ∧ e.tgt = i))) = 0 := by
          apply List.countP_eq_zero.mpr
          intro e he
          obtain ⟨h1, h2, h3⟩ := h.endpoints e he
          simp only [decide_eq_true_iff]
          omega
        rw [hz, countP_decide_eq_count,
          List.count_eq_one_of_mem htoAddNd ((htoAddMem j).mpr hj2)]
  have hstep1 : IsCompleteSimple ((contractMid g v w).removeNode v) m :=
    removeNode_complete hG2 (by omega)
  have hm1 : m = (m - 1) + 1 := by omega
  exact removeNode_complete (hm1 ▸ hstep1) (by omega)

theorem drop_range_eq (m k : Nat) : (List.range k).drop m = List.range' m (k - m) := by
  induction m with
  | zero => simp [List.range_eq_range']
  | succ n ih =>
    rw [← List.drop_drop 1 n, ih]
    cases h : k - n with
    | zero => simp [show k - (n + 1) = 0 from by omega]
    | succ t =>
      rw [List.range'_succ]
      simp [show k - (n + 1) = t from by omega]

theorem countP_eq_range' (s n c : Nat) :
    ((List.range' s n).countP fun x => decide (x = c))
      = if s ≤ c ∧ c < s + n then 1 else 0 := by
  rw [countP_decide_eq_count]
  by_cases hc : s ≤ c ∧ c < s + n
  · rw [if_pos hc]
    exact List.count_eq_one_of_mem (List.nodup_range' _ _)
      (List.mem_range'_1.mpr hc)
  · rw [if_neg hc]
    apply List.count_eq_zero_of_not_mem
    intro hm
    exact hc (List.mem_range'_1.mp hm)

theorem sum_indicator_range (k t : Nat) (ht : t < k) :
    ((List.range k).map fun i0 => if i0 = t then 1 else 0).sum = 1 := by
  induction k with
  | zero => omega
  | succ n ih =>
    rw [List.range_succ, List.map_append, List.sum_append]
    by_cases hcase : t = n
    · subst hcase
      have hz : ((List.range t).map fun i0 => if i0 = t then 1 else 0).sum = 0 := by
        apply List.sum_eq_zero
        intro x hx
        obtain ⟨i0, hi0, rfl⟩ := List.mem_map.mp hx
        have := List.mem_range.mp hi0
        simp [show i0 ≠ t from by omega]
      simp [hz]
    · have ht2 : t < n := by omega
      rw [ih ht2]
      simp [show n ≠ t from by omega]

theorem completeGraph_complete (k : Nat) :
    IsCompleteSimple (generateCompleteGraph k) k := by
  refine ⟨by simp [generateCompleteGraph], ?_, ?_⟩
  · intro e he
    simp only [generateCompleteGraph, List.mem_flatMap] at he
    obtain ⟨i, hi, he⟩ := he
    obtain ⟨j, hj, rfl⟩ := List.mem_map.mp he
    have hik := List.mem_range.mp hi
    rw [drop_range_eq] at hj
    have := List.mem_range'_1.mp hj
    refine ⟨?_, ?_, ?_⟩ <;> · dsimp only; omega
  · intro i j hi hj hij
    show ((List.range k).flatMap fun i0 =>
        ((List.range k).drop (i0 + 1)).map fun j0 => (⟨i0, j0⟩ : SEdge)).countP
      (fun e => decide ((e.src = i ∧ e.tgt = j) ∨ (e.src = j ∧ e.tgt = i))) = 1
    rw [List.countP_flatMap]
    have hinner : ∀ i0 ∈ List.range k,
        (List.countP (fun e => decide ((e.src = i ∧ e.tgt = j) ∨ (e.src = j ∧ e.tgt = i)))
          ∘ fun i0 => ((List.range k).drop (i0 + 1)).map fun j0 => (⟨i0, j0⟩ : SEdge)) i0
        = if i0 = min i j then 1 else 0 := by
      intro i0 hi0
      have hi0k := List.mem_range.mp hi0
      simp only [Function.comp_apply]
      rw [List.countP_map, drop_range_eq]
      by_cases hc : i0 = min i j
      · rw [if_pos hc]
        rcases Nat.lt_or_ge i j with hij2 | hij2
        · have hmin : min i j = i := Nat.min_eq_left (by omega)
          rw [hc, hmin]
          rw [List.countP_congr (fun x hx => ?_), countP_eq_range' (i + 1) (k - (i + 1)) j]
          · rw [if_pos (by omega)]
          · simp only [Function.comp_apply, decide_eq_true_iff]
            constructor
            · rintro (⟨h1, h2⟩ | ⟨h1, h2⟩)
              · exact h2
              · omega
            · intro h2
              exact Or.inl ⟨trivial, h2⟩
        · have hij3 : j < i := by omega
          have hmin : min i j = j := by omega
          rw [hc, hmin]
          rw [List.countP_congr (fun x hx => ?_), countP_eq_range' (j + 1) (k - (j + 1)) i]
          · rw [if_pos (by omega)]
          · simp only [Function.comp_apply, decide_eq_true_iff]
            constructor
            · rintro (⟨h1, h2⟩ | ⟨h1, h2⟩)
              · omega
              · exact h2
            · intro h2
              exact Or.inr ⟨trivial, h2⟩
      · rw [if_neg hc]
        apply List.countP_eq_zero.mpr
        intro x hx
        have hb := List.mem_range'_1.mp hx
        simp only [Function.comp_apply, decide_eq_true_iff]
        omega
    rw [List.map_congr_left hinner,
      sum_indicator_range k (min i j) (by omega)]


theorem mmdLoop_complete :
    ∀ (fuel m : Nat) (g : SGraph) (acc : Nat), IsCompleteSimple g m → 1 ≤ m →
      m ≤ fuel + 1 → mmdLoop fuel g acc = .ok (Nat.max acc (m - 1)) := by
  intro fuel
  induction fuel with
  | zero =>
    intro m g acc h h1 h2
    have hm : m = 1 := by omega
    subst hm
    simp [mmdLoop, SGraph.nodeCount, h.nodesLen]
  | succ f ih =>
    intro m g acc h h1 h2
    by_cases hm2 : 2 ≤ m
    · obtain ⟨v, hv⟩ : ∃ v, minByKey (fun v => (g.neighbors v).length)
          (List.range m) = some v := by
        cases hq : List.range m with
        | nil => rw [List.range_eq_nil] at hq; omega
        | cons a as => exact ⟨_, rfl⟩
      have hvm : v < m := List.mem_range.mp (minByKey_mem _ _ _ hv)
      have hdeg : (g.neighbors v).length = m - 1 := neighbors_length_complete h v hvm
      have hnbne : hsFromList (g.neighbors v) ≠ [] := by
        have hone : (if v = 0 then 1 else 0) ∈ g.neighbors v := by
          rw [mem_neighbors_complete h v _ hvm]
          split_ifs <;> omega
        intro hnil
        have := (hsFromList_mem (g.neighbors v) _).mpr hone
        rw [hnil] at this
        cases this
      obtain ⟨w, hwsel⟩ : ∃ w, minByKey (fun w => if w = v then m + 1
          else (hsInter (hsFromList (g.neighbors w)) (hsFromList (g.neighbors v))).length)
          (hsFromList (g.neighbors v)) = some w := by
        cases hq : hsFromList (g.neighbors v) with
        | nil => exact absurd hq hnbne
        | cons a as => exact ⟨_, rfl⟩
      have hwmem : w ∈ g.neighbors v :=
        (hsFromList_mem _ _).mp (minByKey_mem _ _ _ hwsel)
      have hstep : mmdLoop (f + 1) g acc
          = mmdLoop f (contractEdge g v w) (Nat.max acc (m - 1)) := by
        simp only [mmdLoop, SGraph.nodeCount, SGraph.nodeIdentifiers, h.nodesLen]
        rw [if_pos hm2]
        simp only [hv, hdeg, hwsel]
      rw [hstep]
      rw [ih (m - 1) (contractEdge g v w) (Nat.max acc (m - 1))
        (contractEdge_complete h hm2 hvm hwmem) (by omega) (by omega)]
      congr 1
      exact Nat.max_eq_left (le_trans (by omega : m - 1 - 1 ≤ m - 1)
        (Nat.le_max_right acc (m - 1)))
    · have hm : m = 1 := by omega
      subst hm
      simp [mmdLoop, SGraph.nodeCount, h.nodesLen]

/-- Maximum minimum degree plus of the complete graph on k vertices is
k - 1: every iteration contracts the complete graph on one fewer
vertices, and the first minimum degree seen, k - 1, is the maximum. -/
theorem mmd_completeGraph (k : Nat) :
    maximumMinimumDegreePlus (generateCompleteGraph k) = .ok (k - 1) := by
  cases k with
  | zero => rfl
  | succ n =>
    unfold maximumMinimumDegreePlus
    have hcount : (generateCompleteGraph (n + 1)).nodeCount = n + 1 := by
      simp [SGraph.nodeCount, generateCompleteGraph]
    rw [hcount]
    rw [mmdLoop_complete (n + 1) (n + 1) (generateCompleteGraph (n + 1)) 0
      (completeGraph_complete (n + 1)) (by omega) (by omega)]
    simp

theorem reservoirLoop_keeps_nil (rng : Nat → Nat) :
    ∀ (l : List Nat) (pos i : Nat), reservoirLoop rng 0 l [] pos i = ([], pos + l.length)
  | [], pos, i => by simp [reservoirLoop]
  | x :: xs, pos, i => by
    simp only [reservoirLoop, List.length_nil]
    rw [if_neg (by omega)]
    rw [reservoirLoop_keeps_nil rng xs (pos + 1) (i + 1)]
    simp only [List.length_cons]
    congr 1
    omega

theorem genPartialKTree_self (rng : Nat → Nat) (pos k : Nat) :
    generatePartialKTree rng pos k k 0
      = .ok (some (generateCompleteGraph k, pos + k * (k - 1) / 2)) := by
  simp only [generatePartialKTree, generateKTree]
  rw [if_neg (by omega), Nat.sub_self]
  simp only [kTreeLoop]
  rw [if_pos (by rw [generateCompleteGraph_edgeCount]; simp)]
  simp only [Nat.sub_self, Nat.mul_zero, Nat.add_zero, Nat.zero_div, Nat.zero_min]
  simp only [chooseMultiple, List.take_zero, List.length_nil, List.drop_zero, if_true]
  rw [reservoirLoop_keeps_nil]
  simp only [List.foldl_nil, List.length_range, generateCompleteGraph_edgeCount]

/-- Claim C10: for every k of at least 1, the retry loop of
generate_partial_k_tree_with_guaranteed_treewidth never terminates on
input (k, k, 0): generate_k_tree starts from the complete graph on k
(not k + 1) vertices and adds n - k = 0 further vertices, so the sample
is always the complete graph on k vertices, whose
maximum_minimum_degree_plus is k - 1 and never k; every round is
discarded, whatever fuel and random stream are supplied. -/
theorem generatePartialKTreeWithGuaranteedTreewidth_diverges (k : Nat) (hk : 1 ≤ k)
    (rng : Nat → Nat) (fuel pos : Nat) :
    generatePartialKTreeWithGuaranteedTreewidth rng k k 0 fuel pos = none ∧
    generateKTree rng pos k k = some (generateCompleteGraph k, pos) ∧
    maximumMinimumDegreePlus (generateCompleteGraph k) = .ok (k - 1) := by
  refine ⟨?_, ?_, mmd_completeGraph k⟩
  · show genGuaranteedLoop rng k k 0 fuel pos = none
    induction fuel generalizing pos with
    | zero => rfl
    | succ f ih =>
      simp only [genGuaranteedLoop, genPartialKTree_self, mmd_completeGraph]
      rw [if_neg (by omega : ¬ (k - 1 = k))]
      exact ih (pos + k * (k - 1) / 2)
  · simp only [generateKTree]
    rw [if_neg (by omega), Nat.sub_self]
    simp only [kTreeLoop]

/-- Witness for claim C10 at k = 1 with fuel 3. -/
theorem generatePartialKTreeWithGuaranteedTreewidth_diverges_witness :
    (1 : Nat) ≤ 1 ∧
      generatePartialKTreeWithGuaranteedTreewidth (fun _ => 0) 1 1 0 3 0 = none :=
  ⟨le_refl 1,
    (generatePartialKTreeWithGuaranteedTreewidth_diverges 1 (le_refl 1)
      (fun _ => 0) 3 0).1⟩

/-- Claim C8 is violated by the code: on the two-vertex graph with no
edges the loop of maximum_minimum_degree_plus runs (two vertices remain),
the minimum-degree vertex is isolated, and the selection of its
least-common-neighbours neighbour panics (min_by_key over an empty
neighbour set, expect fires although the graph does have two nodes). -/
theorem maximumMinimumDegreePlus_isolated_panics :
    maximumMinimumDegreePlus { nodes := [0, 0], edges := [] }
      = .error "Graph should have at least 2 nodes" := by rfl

/-! Embedding of src/src/find_connected_components.rs. -/

/-- Inner vertex loop of breadth_first_search (lines 58 to 69): process
the vertices of the current level, and after each vertex compare the
number of seen vertices with the EDGE count of the graph, returning
early on equality (the source compares against edge_count, not
node_count). -/
def bfsLevel (g : SGraph) (edgeCount : Nat) :
    List Nat → List Nat → List Nat → Bool → List Nat ⊕ (List Nat × List Nat × Bool)
  | [], seen, next, flag => .inr (seen, next, flag)
  | v :: vs, seen, next, flag =>
    let folded := (g.neighbors v).foldl
      (fun (acc : List Nat × List Nat × Bool) nb =>
        if nb ∈ acc.1 then acc else (acc.1 ++ [nb], acc.2.1 ++ [nb], true))
      (seen, next, flag)
    if folded.1.length = edgeCount then .inl folded.1
    else bfsLevel g edgeCount vs folded.1 folded.2.1 folded.2.2

/-- Outer while loop of breadth_first_search (lines 53 to 70); the fuel
bounds the number of levels, which the source bounds by the node count. -/
def bfsLoop (g : SGraph) (edgeCount : Nat) :
    Nat → List Nat → List Nat → List Nat
  | 0, seen, _ => seen
  | fuel + 1, seen, nextLevel =>
    match bfsLevel g edgeCount nextLevel seen [] false with
    | .inl early => early
    | .inr (seen2, next2, flag) =>
      if flag then bfsLoop g edgeCount fuel seen2 next2 else seen2

/-- Embedding of breadth_first_search (lines 34 to 73). -/
def breadthFirstSearch (g : SGraph) (source : Nat) : List Nat :=
  bfsLoop g g.edges.length (g.nodes.length + 1) [source] [source]

/-- Embedding of find_connected_components (lines 13 to 31): repeatedly
run breadth_first_search from the first vertex not yet seen and emit the
resulting set as a component. -/
def findConnectedComponentsLoop (g : SGraph) :
    Nat → List Nat → List (List Nat)
  | 0, _ => []
  | fuel + 1, seen =>
    match g.nodeIdentifiers.find? (fun v => decide (¬ v ∈ seen)) with
    | none => []
    | some v =>
      let comp := breadthFirstSearch g v
      comp :: findConnectedComponentsLoop g fuel (comp.foldl hsInsert seen)

def findConnectedComponents (g : SGraph) : List (List Nat) :=
  findConnectedComponentsLoop g (g.nodes.length + 1) []

/-! Embedding of src/src/find_maximal_cliques.rs. -/

/-- Pivot selection of the Bron-Kerbosch variant: the vertex of the
current atcc set maximising the number of its neighbours inside atcc
(max_by_key keeps the last maximum). -/
def bkPivot (g : SGraph) (atcc : List Nat) : Option Nat :=
  maxByKey (fun v => ((g.neighbors v).filter fun w => decide (w ∈ atcc)).length) atcc

/-- Main loop of the iterator returned by find_maximal_cliques
(lines 56 to 110), with the iterator state as arguments and the emitted
cliques accumulated; one fuel unit per loop iteration. -/
def bkLoop (g : SGraph) :
    Nat → List (Option Nat) → List (List Nat × List Nat × List Nat) →
      List Nat → List Nat → List Nat → List (List Nat) →
      Except String (List (List Nat))
  | 0, _, _, _, _, _, _ => .error "bk fuel exhausted"
  | fuel + 1, currentClique, stack, atcc, candidates, promising, acc =>
    match promising.getLast? with
    | some q =>
      let promising2 := promising.dropLast
      if 0 < currentClique.length then
        let currentClique2 := currentClique.dropLast ++ [some q]
        let candidates2 := candidates.filter fun v => decide (v ≠ q)
        let adjacentToQ := hsFromList (g.neighbors q)
        let atccQ := atcc.filter fun v => decide (v ∈ adjacentToQ)
        if atccQ.isEmpty then
          bkLoop g fuel currentClique2 stack atcc candidates2 promising2
            (acc ++ [currentClique2.filterMap id])
        else
          let candidatesQ := candidates2.filter fun v => decide (v ∈ adjacentToQ)
          if candidatesQ.isEmpty then
            bkLoop g fuel currentClique2 stack atcc candidates2 promising2 acc
          else
            match bkPivot g atccQ with
            | none => .error "Graph should not be empty"
            | some u2 =>
              bkLoop g fuel (currentClique2 ++ [none])
                (stack ++ [(atcc, candidates2, promising2)]) atccQ candidatesQ
                (candidatesQ.filter fun v =>
                  decide (¬ v ∈ hsFromList (g.neighbors u2))) acc
      else
        bkLoop g fuel currentClique stack atcc candidates promising2 acc
    | none =>
      match stack.getLast? with
      | some frame =>
        bkLoop g fuel currentClique.dropLast stack.dropLast frame.1 frame.2.1
          frame.2.2 acc
      | none => .ok acc

/-- Embedding of find_maximal_cliques (lines 11 to 112).  The pivot for
the initial state is computed eagerly, before the first iterator step:
on a graph with no vertices the expect panics (error case) even though
the closure body carries a dead empty-graph guard.  The returned list
collects every clique the iterator would emit. -/
def findMaximalCliques (g : SGraph) (fuel : Nat) : Except String (List (List Nat)) :=
  let atcc0 := hsFromList g.nodeIdentifiers
  match bkPivot g atcc0 with
  | none => .error "Graph should not be empty"
  | some u =>
    if g.nodeCount = 0 then .ok []
    else
      bkLoop g fuel [none] [] atcc0 (hsFromList g.nodeIdentifiers)
        (atcc0.filter fun v => decide (¬ v ∈ hsFromList (g.neighbors u))) []

/-- Itertools combinations over a list, in itertools emission order. -/
def combinationsList : Nat → List Nat → List (List Nat)
  | 0, _ => [[]]
  | _ + 1, [] => []
  | k + 1, x :: xs =>
    ((combinationsList k xs).map fun c => x :: c) ++ combinationsList (k + 1) xs

def insertSorted (x : Nat) : List Nat → List Nat
  | [] => [x]
  | y :: ys => if x ≤ y then x :: y :: ys else y :: insertSorted x ys

/-- Ascending sort, modelling Vec sort. -/
def sortNat (l : List Nat) : List Nat := l.foldr insertSorted []

/-- Loop of the iterator returned by find_maximal_cliques_bounded
(lines 146 to 162): drain the pending combinations with
sort-then-seen-set deduplication, then take the next maximal clique,
emitting it directly when its size is at most k and expanding it into
its k-combinations otherwise. -/
def boundedLoop (kk : Nat) :
    Nat → List (List Nat) → List (List Nat) → List (List Nat) → List (List Nat) →
      Except String (List (List Nat))
  | 0, _, _, _, _ => .error "bounded fuel exhausted"
  | fuel + 1, c :: cs, seen, rest, acc =>
    let sorted := sortNat c
    if sorted ∈ seen then boundedLoop kk fuel cs seen rest acc
    else boundedLoop kk fuel cs (seen ++ [sorted]) rest (acc ++ [sorted])
  | fuel + 1, [], seen, c :: cs, acc =>
    if c.length ≤ kk then boundedLoop kk fuel [] seen cs (acc ++ [c])
    else boundedLoop kk fuel (combinationsList kk c) seen cs acc
  | _ + 1, [], _, [], acc => .ok acc

/-- Embedding of find_maximal_cliques_bounded (lines 120 to 163).  Both
inner calls of find_maximal_cliques panic eagerly on an empty graph.  A
negative k is re-keyed to the maximal clique size plus k (the Rust cast
k as usize relies on wrapping addition). -/
def findMaximalCliquesBounded (g : SGraph) (fuel : Nat) (k : Int) :
    Except String (List (List Nat)) :=
  match findMaximalCliques g fuel with
  | .error e => .error e
  | .ok cliques =>
    match findMaximalCliques g fuel with
    | .error e => .error e
    | .ok cliques2 =>
      match (if k < 0 then
          match maxByKey (fun c : List Nat => c.length) cliques with
          | none => .error "The graph should not be empty"
          | some c => .ok ((c.length : Int) + k).toNat
        else .ok k.toNat : Except String Nat) with
      | .error e => .error e
      | .ok kk => boundedLoop kk (fuel + (cliques2.map fun c =>
          (combinationsList kk c).length + 1).sum + 1) (combinationsList kk [])
          [] cliques2 []

/-- Claim C2 is violated by the code: breadth_first_search returns early
as soon as the number of SEEN VERTICES equals the EDGE count of the
whole graph.  On the path graph 0 - 1 - 2 (two edges) the search from 0
stops after seeing two vertices, so the emitted components are [0, 1]
and [2, 1]: vertex 1 occurs in two components and the output is not a
partition. -/
theorem findConnectedComponents_path_not_partition :
    findConnectedComponents { nodes := [0, 0, 0], edges := [⟨0, 1⟩, ⟨1, 2⟩] }
      = [[0, 1], [2, 1]] ∧
    ((findConnectedComponents { nodes := [0, 0, 0], edges := [⟨0, 1⟩, ⟨1, 2⟩] }).filter
      fun c => decide (1 ∈ c)).length = 2 := by
  exact ⟨by decide, by decide⟩

/-- Claim C3 is violated by the code: find_maximal_cliques computes the
initial pivot eagerly, before the iterator is first polled, and the
expect on the empty maximum fires on a graph with no vertices, although
the iterator body carries an (unreachable) empty-graph guard.  The
second conjunct records that the isolated-vertex half of the claim does
hold on a concrete graph: vertex 2, which has no edges, is emitted as
the singleton maximal clique [2]. -/
theorem findMaximalCliques_emptyGraph_panics :
    findMaximalCliques { nodes := [], edges := [] } 100
      = .error "Graph should not be empty" ∧
    findMaximalCliques { nodes := [0, 0, 0], edges := [⟨0, 1⟩] } 100
      = .ok [[2], [1, 0]] := by
  exact ⟨rfl, rfl⟩

/-- Claim C4 is violated by the code: find_maximal_cliques_bounded calls
find_maximal_cliques on construction, so on the empty graph it panics
eagerly for every bound k instead of emitting the (empty) union of
bounded cliques. -/
theorem findMaximalCliquesBounded_emptyGraph_panics :
    findMaximalCliquesBounded { nodes := [], edges := [] } 100 3
      = .error "Graph should not be empty" := by
  rfl

/-- Sanity check of the bounded enumerator embedding on the complete
graph on five vertices minus one edge (repository test graph): with
bound 3 the output is exactly the set of 3-subsets of the two maximal
4-cliques, with the subset shared by both emitted only once. -/
def k5MinusOneEdge : SGraph :=
  { nodes := [0, 0, 0, 0, 0]
    edges := [⟨0, 1⟩, ⟨0, 2⟩, ⟨0, 3⟩, ⟨1, 2⟩, ⟨1, 3⟩, ⟨1, 4⟩, ⟨2, 3⟩, ⟨2, 4⟩, ⟨3, 4⟩] }

theorem findMaximalCliquesBounded_sample :
    (findMaximalCliquesBounded k5MinusOneEdge 2000 3).map (fun l => l.map sortNat)
    = .ok [[1, 2, 3], [2, 3, 4], [1, 3, 4], [1, 2, 4], [0, 2, 3], [0, 1, 3], [0, 1, 2]] := by
  rfl

/-! Embedding of the clique-graph side: graphs whose node weights are
bags of original-graph vertices, as used by construct_clique_graph.rs,
fill_bags_along_paths.rs and fill_bags_while_generating_mst.rs. -/

/-- Edge of a bag graph, carrying the Int weight produced by an edge
weight function such as negative_intersection. -/
structure BEdge where
  src : Nat
  tgt : Nat
  w : Int
  deriving Repr, DecidableEq

/-- Petgraph-style undirected graph whose node weights are bags
(HashSets of original-graph vertex indices, modelled as
insertion-ordered duplicate-free lists). -/
structure BGraph where
  bags : List (List Nat)
  edges : List BEdge
  deriving Repr, DecidableEq

/-- Petgraph neighbour iteration on a bag graph, most recently added
edge first in each direction list. -/
def BGraph.neighbors (g : BGraph) (v : Nat) : List Nat :=
  (g.edges.reverse.filterMap fun e => if e.src = v then some e.tgt else none)
    ++ (g.edges.reverse.filterMap fun e => if e.tgt = v then some e.src else none)

/-- Depth-first search for the first simple path, following the
neighbour iteration order, as petgraph all_simple_paths(.., 0, None)
followed by next() does on these graphs. -/
def firstSimplePathAux (g : BGraph) (target : Nat) :
    Nat → List Nat → Nat → Option (List Nat)
  | 0, _, _ => none
  | fuel + 1, path, current =>
    if current = target then some (path ++ [current])
    else
      (g.neighbors current).findSome? fun nb =>
        if nb ∈ path ++ [current] then none
        else firstSimplePathAux g target fuel (path ++ [current]) nb

def firstSimplePath (g : BGraph) (a b : Nat) : Option (List Nat) :=
  firstSimplePathAux g b (g.bags.length + 1) [] a

/-- Unordered index pairs (i, j) with i < j in combinations(2) order. -/
def pairsOf (n : Nat) : List (Nat × Nat) :=
  (List.range n).flatMap fun i => ((List.range n).drop (i + 1)).map fun j => (i, j)

/-- First phase of fill_bags_along_paths
(treewidth_heuristic/src/fill_bags_along_paths.rs lines 47 to 67): for
every 2-combination of nodes whose bags intersect, record the pair
together with the intersection; the Rust code pops the combination
vector, so the SECOND element of the combination becomes first_id, and
the first intersection element is moved to the back of the collected
vector. -/
def fillBagsPairs (g : BGraph) : List (Nat × Nat × List Nat) :=
  (pairsOf g.bags.length).filterMap fun p =>
    match (g.bags.getD p.2 []).filter fun x => decide (x ∈ g.bags.getD p.1 []) with
    | [] => none
    | h :: t => some (p.2, p.1, t ++ [h])

/-- Rust HashSet extend on the insertion-ordered list model. -/
def extendBag (bag : List Nat) (xs : List Nat) : List Nat := xs.foldl hsInsert bag

def BGraph.setBag (g : BGraph) (idx : Nat) (b : List Nat) : BGraph :=
  { g with bags := g.bags.set idx b }

/-- Second phase of fill_bags_along_paths (lines 70 to 106) for one
recorded triple: walk the first simple path from first_id to second_id,
drop the final node, and extend the bag of every path node other than
first_id with the recorded intersection.  The error case embeds the
expect panic when no path exists. -/
def fillAlongPath (g : BGraph) (firstId secondId : Nat) (ivec : List Nat) :
    Except String BGraph :=
  match firstSimplePath g firstId secondId with
  | none => .error "There should be a path in the tree"
  | some path =>
    .ok (path.dropLast.foldl
      (fun h idx =>
        if idx ≠ firstId then h.setBag idx (extendBag (h.bags.getD idx []) ivec) else h)
      g)

/-- Embedding of fill_bags_along_paths (lines 44 to 107). -/
def fillBagsAlongPaths (g : BGraph) : Except String BGraph :=
  (fillBagsPairs g).foldlM (fun h t => fillAlongPath h t.1 t.2.1 t.2.2) g

theorem extendBag_eq_self {bag xs : List Nat} (h : ∀ x ∈ xs, x ∈ bag) :
    extendBag bag xs = bag := by
  unfold extendBag
  induction xs generalizing bag with
  | nil => rfl
  | cons x l ih =>
    rw [List.foldl_cons]
    rw [show hsInsert bag x = bag from by
      unfold hsInsert; rw [if_pos (h x (List.mem_cons_self _ _))]]
    exact ih fun y hy => h y (List.mem_cons_of_mem _ hy)

theorem set_getD_self {α : Type} (d : α) :
    ∀ (l : List α) (i : Nat), l.set i (l.getD i d) = l
  | [], i => by simp
  | x :: xs, 0 => by simp [List.getD]
  | x :: xs, i + 1 => by
    simp only [List.set, List.getD_cons_succ]
    rw [set_getD_self d xs i]
theorem set_ge_length {α : Type} :
    ∀ (l : List α) (n : Nat) (a : α), l.length ≤ n → l.set n a = l
  | [], n, a, h => by simp
  | x :: xs, 0, a, h => by simp at h
  | x :: xs, n + 1, a, h => by
    simp only [List.set]
    rw [set_ge_length xs n a (by simpa using h)]

theorem setBag_getD (g : BGraph) (idx : Nat) :
    g.setBag idx (g.bags.getD idx []) = g := by
  unfold BGraph.setBag
  rw [set_getD_self]

theorem foldl_fix {f : BGraph → Nat → BGraph} :
    ∀ (l : List Nat) (g : BGraph), (∀ x ∈ l, f g x = g) → l.foldl f g = g
  | [], g, _ => rfl
  | x :: xs, g, h => by
    rw [List.foldl_cons, h x (List.mem_cons_self _ _)]
    exact foldl_fix xs g fun y hy => h y (List.mem_cons_of_mem _ hy)

theorem foldlM_fix :
    ∀ (ts : List (Nat × Nat × List Nat)) (g : BGraph),
      (∀ t ∈ ts, fillAlongPath g t.1 t.2.1 t.2.2 = .ok g) →
      ts.foldlM (fun h t => fillAlongPath h t.1 t.2.1 t.2.2) g = .ok g
  | [], g, _ => rfl
  | t :: ts, g, h => by
    rw [List.foldlM_cons, h t (List.mem_cons_self _ _)]
    show (Except.ok g >>= fun h2 => ts.foldlM (fun h t => fillAlongPath h t.1 t.2.1 t.2.2) h2)
      = .ok g
    rw [show ((Except.ok g >>= fun h2 => ts.foldlM
        (fun h t => fillAlongPath h t.1 t.2.1 t.2.2) h2) : Except String BGraph)
      = ts.foldlM (fun h t => fillAlongPath h t.1 t.2.1 t.2.2) g from rfl]
    exact foldlM_fix ts g fun t2 ht2 => h t2 (List.mem_cons_of_mem _ ht2)

theorem pairs_mem_spec (g : BGraph) :
    ∀ t ∈ fillBagsPairs g,
      (∀ x ∈ t.2.2, x ∈ g.bags.getD t.1 [] ∧ x ∈ g.bags.getD t.2.1 []) ∧
      ((g.bags.getD t.1 []).filter fun x => decide (x ∈ g.bags.getD t.2.1 [])) ≠ [] ∧
      t.1 < g.bags.length ∧ t.2.1 < g.bags.length := by
  intro t ht
  unfold fillBagsPairs at ht
  obtain ⟨p, hp, hmk⟩ := List.mem_filterMap.mp ht
  have hpb : p.1 < g.bags.length ∧ p.2 < g.bags.length := by
    unfold pairsOf at hp
    obtain ⟨i, hi, hin⟩ := List.mem_flatMap.mp hp
    obtain ⟨j, hj, hpe⟩ := List.mem_map.mp hin
    rw [drop_range_eq] at hj
    have hjb := List.mem_range'_1.mp hj
    have hib := List.mem_range.mp hi
    rw [← hpe]
    exact ⟨hib, by omega⟩
  cases hfil : (g.bags.getD p.2 []).filter fun x => decide (x ∈ g.bags.getD p.1 []) with
  | nil => rw [hfil] at hmk; cases hmk
  | cons h0 t0 =>
    rw [hfil] at hmk
    cases hmk
    refine ⟨?_, ?_, hpb.2, hpb.1⟩
    · intro x hx
      have hx2 : x ∈ h0 :: t0 := by
        rcases List.mem_append.mp hx with hx | hx
        · exact List.mem_cons_of_mem _ hx
        · simp only [List.mem_singleton] at hx
          rw [hx]; exact List.mem_cons_self _ _
      rw [← hfil] at hx2
      have := List.mem_filter.mp hx2
      exact ⟨this.1, of_decide_eq_true this.2⟩
    · rw [hfil]
      exact List.cons_ne_nil _ _

/-- Claim C9: on a graph whose bags already satisfy the running
intersection property along the computed tree paths (in a tree those
paths are the unique paths, so this is exactly a valid tree
decomposition), fill_bags_along_paths leaves every bag, and hence the
whole graph, unchanged; a second application after a successful first
one is therefore the identity. -/
theorem fillBagsAlongPaths_idempotent (g : BGraph)
    (hpath : ∀ a, a < g.bags.length → ∀ b, b < g.bags.length →
      ((g.bags.getD a []).filter fun x => decide (x ∈ g.bags.getD b [])) ≠ [] →
      (firstSimplePath g a b).isSome = true)
    (hrip : ∀ a, a < g.bags.length → ∀ b, b < g.bags.length →
      ∀ w ∈ g.bags.getD a [], w ∈ g.bags.getD b [] →
      ∀ c ∈ (firstSimplePath g a b).getD [], w ∈ g.bags.getD c []) :
    fillBagsAlongPaths g = .ok g := by
  unfold fillBagsAlongPaths
  apply foldlM_fix
  intro t ht
  obtain ⟨hmem, hfil, h1, h2⟩ := pairs_mem_spec g t ht
  have hps := hpath t.1 h1 t.2.1 h2 hfil
  obtain ⟨path, hpeq⟩ := Option.isSome_iff_exists.mp hps
  unfold fillAlongPath
  rw [hpeq]
  show Except.ok (path.dropLast.foldl
    (fun h idx => if idx ≠ t.1 then h.setBag idx (extendBag (h.bags.getD idx []) t.2.2) else h)
    g) = Except.ok g
  congr 1
  apply foldl_fix
  intro idx hidx
  by_cases hne : idx ≠ t.1
  · rw [if_pos hne]
    have hidx2 : idx ∈ (firstSimplePath g t.1 t.2.1).getD [] := by
      rw [hpeq]
      exact (List.dropLast_sublist path).subset hidx
    rw [extendBag_eq_self fun x hx =>
      hrip t.1 h1 t.2.1 h2 x (hmem x hx).1 (hmem x hx).2 idx hidx2]
    exact setBag_getD g idx
  · rw [if_neg hne]

/-- Witness for claim C9: a two-bag tree decomposition of the path
1 - 2 - 3 with bags [1, 2] and [2, 3] is left unchanged. -/
theorem fillBagsAlongPaths_idempotent_witness :
    fillBagsAlongPaths { bags := [[1, 2], [2, 3]], edges := [⟨0, 1, 0⟩] }
      = .ok { bags := [[1, 2], [2, 3]], edges := [⟨0, 1, 0⟩] } :=
  fillBagsAlongPaths_idempotent _ (by decide) (by decide)

/-! Embedding of the FillWhilstMSTTree arm of
compute_treewidth_upper_bound (src/src/compute_treewidth_upper_bound.rs
lines 219 to 234): construct_clique_graph_with_bags, then
fill_bags_while_generating_mst_using_tree, then the width. -/

/-- Embedding of negative_intersection
(src/src/clique_graph_edge_weight_functions.rs lines 17 to 25). -/
def negativeIntersection (a b : List Nat) : Int :=
  -((hsFromList (hsInter a b)).length : Int)

/-- Association list get (models HashMap get). -/
def assocGet (m : List (Nat × Nat)) (v : Nat) : Option Nat :=
  (m.find? fun p => decide (p.1 = v)).map fun p => p.2

/-- Association list get for the inverted index (vertex to the set of
clique-graph nodes whose bag contains it). -/
def mapGet (m : List (Nat × List Nat)) (v : Nat) : Option (List Nat) :=
  (m.find? fun p => decide (p.1 = v)).map fun p => p.2

/-- Insertion into the inverted index
(add_node_index_to_bag_in_hashmap, construct_clique_graph.rs lines 107
to 119). -/
def mapInsert : List (Nat × List Nat) → Nat → Nat → List (Nat × List Nat)
  | [], v, idx => [(v, [idx])]
  | p :: ps, v, idx =>
    if p.1 = v then (p.1, hsInsert p.2 idx) :: ps else p :: mapInsert ps v idx

/-- Embedding of construct_clique_graph_with_bags
(src/src/construct_clique_graph.rs lines 53 to 103): for each clique, in
order, add a node carrying the clique as bag, record the node in the
inverted index, and add an edge to every earlier node whose bag
intersects the new bag, weighted by the edge weight function. -/
def constructCliqueGraphWithBags (cliques : List (List Nat))
    (wf : List Nat → List Nat → Int) : BGraph × List (Nat × List Nat) :=
  cliques.foldl
    (fun (acc : BGraph × List (Nat × List Nat)) clique =>
      let g := acc.1
      let idx := g.bags.length
      let g1 : BGraph := { bags := g.bags ++ [hsFromList clique], edges := g.edges }
      let m1 := clique.foldl (fun m v => mapInsert m v idx) acc.2
      let g2 := (List.range g1.bags.length).foldl
        (fun h other =>
          if other = idx then h
          else if (hsInter (h.bags.getD idx []) (h.bags.getD other [])).isEmpty then h
          else { h with edges := h.edges ++
            [⟨idx, other, wf (h.bags.getD idx []) (h.bags.getD other [])⟩] })
        g1
      (g2, m1))
    ({ bags := [], edges := [] }, [])

/-- Lookup in the predecessor map: node to (predecessor, level). -/
def pmGet (pm : List (Nat × Nat × Nat)) (x : Nat) : Option (Nat × Nat) :=
  (pm.find? fun t => decide (t.1 = x)).map fun t => t.2

/-- Insertion into the BTreeSet of Predecessor values, ordered by level
then node index, without duplicates. -/
def predInsert (p : Nat × Nat) : List (Nat × Nat) → List (Nat × Nat)
  | [] => [p]
  | q :: qs =>
    if p = q then q :: qs
    else if p.2 < q.2 ∨ (p.2 = q.2 ∧ p.1 < q.1) then p :: q :: qs
    else q :: predInsert p qs

/-- Walk of fill_bags_until_common_predecessor
(treewidth_heuristic/src/fill_bags_along_paths.rs lines 216 to 278):
repeatedly pop the deepest recorded predecessor, insert the original
vertex into its bag, and push its own predecessor when the map has one
(the root has no entry and is silently skipped); when one element
remains it also receives the vertex. -/
def fbucpLoop (pm : List (Nat × Nat × Nat)) (u : Nat) :
    Nat → BGraph → List (Nat × Nat) → Except String BGraph
  | 0, _, _ => .error "fbucp fuel exhausted"
  | fuel + 1, g, preds =>
    if 1 < preds.length then
      match preds.getLast? with
      | none => .error "Collection should not be empty"
      | some cur =>
        let g2 := g.setBag cur.1 (hsInsert (g.bags.getD cur.1 []) u)
        match pmGet pm cur.1 with
        | some pi => fbucpLoop pm u fuel g2 (predInsert pi preds.dropLast)
        | none => fbucpLoop pm u fuel g2 preds.dropLast
    else
      match preds.head? with
      | some cp => .ok (g.setBag cp.1 (hsInsert (g.bags.getD cp.1 []) u))
      | none => .ok g

/-- Embedding of fill_bags_until_common_predecessor (lines 185 to 279). -/
def fillBagsUntilCommonPredecessor (g : BGraph) (pm : List (Nat × Nat × Nat))
    (u : Nat) (verts : List Nat) : Except String BGraph :=
  let preds := if 1 < verts.length then
      verts.foldl (fun s x =>
        match pmGet pm x with
        | some pi => predInsert pi s
        | none => s) []
    else []
  fbucpLoop pm u (2 * pm.length + 4) g preds

/-- Frontier insertion (HashSet of pairs, insertion-ordered model). -/
def pairInsert (s : List (Nat × Nat)) (p : Nat × Nat) : List (Nat × Nat) :=
  if p ∈ s then s else s ++ [p]

/-- Embedding of find_cheapest_vertex
(src/src/fill_bags_while_generating_mst.rs lines 406 to 415). -/
def findCheapestVertex (cg res : BGraph) (wf : List Nat → List Nat → Int)
    (frontier : List (Nat × Nat)) : Except String (Nat × Nat) :=
  match minByKey (fun p : Nat × Nat =>
      wf (res.bags.getD p.1 []) (cg.bags.getD p.2 [])) frontier with
  | none => .error "There should be interesting vertices"
  | some p => .ok p

/-- HashSet of node indices, insertion-ordered model. -/
def pairInsertNat (s : List Nat) (x : Nat) : List Nat :=
  if x ∈ s then s else s ++ [x]

/-- Main loop of fill_bags_while_generating_mst_using_tree
(src/src/fill_bags_while_generating_mst.rs lines 456 to 532). -/
def fwgmtLoop (cg : BGraph) (wf : List Nat → List Nat → Int)
    (cgMap : List (Nat × List Nat)) :
    Nat → BGraph → List (Nat × Nat) → List (Nat × Nat × Nat) → List Nat →
      List (Nat × Nat) → Except String BGraph
  | 0, res, _, _, remaining, _ =>
    if remaining.isEmpty then .ok res else .error "fwgmt fuel exhausted"
  | fuel + 1, res, nim, pm, remaining, frontier =>
    if remaining.isEmpty then .ok res
    else
      match findCheapestVertex cg res wf frontier with
      | .error e => .error e
      | .ok cheap =>
        let cheapRes := cheap.1
        let cheapCg := cheap.2
        let remaining2 := remaining.filter fun v => decide (v ≠ cheapCg)
        let newIdx := res.bags.length
        let newBag := cg.bags.getD cheapCg []
        let res2 : BGraph := ⟨res.bags ++ [newBag],
          res.edges ++ [⟨cheapRes, newIdx, wf (res.bags.getD cheapRes []) newBag⟩]⟩
        let nim2 := nim ++ [(cheapCg, newIdx)]
        let pm2 := match pmGet pm cheapRes with
          | some pi => pm ++ [(newIdx, cheapRes, pi.2 + 1)]
          | none => pm ++ [(newIdx, cheapRes, 0)]
        let frontier2 := (cg.neighbors cheapCg).foldl
          (fun s nb => if nb ∈ remaining2 then pairInsert s (newIdx, nb) else s) frontier
        let frontier3 := frontier2.filter fun p => decide (p.2 ≠ cheapCg)
        match newBag.foldlM
            (fun (r : BGraph) uv =>
              match mapGet cgMap uv with
              | none => Except.ok r
              | some cgvs => cgvs.foldlM
                  (fun (r2 : BGraph) cgv =>
                    match assocGet nim2 cgv with
                    | none => Except.ok r2
                    | some resv =>
                      if resv ≠ newIdx then
                        fillBagsUntilCommonPredecessor r2 pm2 uv
                          (pairInsertNat (pairInsertNat [] newIdx) resv)
                      else Except.ok r2)
                  r)
            res2 with
        | .error e => .error e
        | .ok res3 => fwgmtLoop cg wf cgMap fuel res3 nim2 pm2 remaining2 frontier3

/-- Embedding of fill_bags_while_generating_mst_using_tree
(lines 417 to 535): grow the spanning tree from clique-graph node 0,
always attaching the frontier pair of minimal heuristic weight, and run
the rooted-tree fill for every vertex of each newly added bag. -/
def fillBagsWhileGeneratingMstUsingTree (cg : BGraph)
    (wf : List Nat → List Nat → Int) (cgMap : List (Nat × List Nat)) :
    Except String BGraph :=
  if cg.bags.length = 0 then .error "Graph should not be empty"
  else
    let res0 : BGraph := { bags := [cg.bags.getD 0 []], edges := [] }
    let frontier0 := (cg.neighbors 0).foldl (fun s nb => pairInsert s (0, nb)) []
    fwgmtLoop cg wf cgMap (cg.bags.length + 1) res0 [(0, 0)] []
      ((List.range cg.bags.length).drop 1) frontier0

/-- Embedding of find_width_of_tree_decomposition
(src/src/find_width_of_tree_decomposition.rs lines 8 to 16). -/
def findWidthOfTreeDecomposition (g : BGraph) : Nat :=
  match maxByKey (fun b : List Nat => b.length) g.bags with
  | none => 0
  | some b => b.length - 1

/-- Embedding of the FillWhilstMSTTree arm of
compute_treewidth_upper_bound, returning the filled tree and the width. -/
def computeTreewidthUpperBoundFillWhilstMSTTree (g : SGraph) (fuel : Nat)
    (wf : List Nat → List Nat → Int) : Except String (BGraph × Nat) :=
  match findMaximalCliques g fuel with
  | .error e => .error e
  | .ok cliques =>
    let cgm := constructCliqueGraphWithBags cliques wf
    match fillBagsWhileGeneratingMstUsingTree cgm.1 wf cgm.2 with
    | .error e => .error e
    | .ok tree => .ok (tree, findWidthOfTreeDecomposition tree)

/-! Decidable checker for the tree decomposition properties T1 (every
vertex in some bag), T2 (every edge covered by some bag), T3 (the bags
containing a given vertex induce a connected subgraph of the tree). -/

/-- Adjacency in a bag graph, either direction. -/
def adjacentB (t : BGraph) (a b : Nat) : Bool :=
  t.edges.any fun e =>
    (decide (e.src = a) && decide (e.tgt = b)) || (decide (e.src = b) && decide (e.tgt = a))

/-- Indices of the bags that contain vertex u. -/
def bagsContaining (t : BGraph) (u : Nat) : List Nat :=
  (List.range t.bags.length).filter fun i => decide (u ∈ t.bags.getD i [])

/-- Reachability closure inside an allowed set of tree nodes. -/
def closureLoop (t : BGraph) (allowed : List Nat) : Nat → List Nat → List Nat
  | 0, acc => acc
  | fuel + 1, acc =>
    let nxt := allowed.filter fun v =>
      decide (¬ v ∈ acc) && acc.any fun r => adjacentB t r v
    if nxt.isEmpty then acc else closureLoop t allowed fuel (acc ++ nxt)

/-- The allowed set induces a connected subgraph of t. -/
def connectedIn (t : BGraph) (allowed : List Nat) : Bool :=
  match allowed with
  | [] => true
  | s :: _ => allowed.all fun v => decide (v ∈ closureLoop t allowed allowed.length [s])

/-- T1: every vertex of g appears in some bag. -/
def checkT1 (g : SGraph) (t : BGraph) : Bool :=
  (List.range g.nodes.length).all fun u => t.bags.any fun b => decide (u ∈ b)

/-- T2: both endpoints of every edge of g share some bag. -/
def checkT2 (g : SGraph) (t : BGraph) : Bool :=
  g.edges.all fun e => t.bags.any fun b => decide (e.src ∈ b) && decide (e.tgt ∈ b)

/-- T3: for every vertex of g the bags containing it are connected in t. -/
def checkT3 (g : SGraph) (t : BGraph) : Bool :=
  (List.range g.nodes.length).all fun u => connectedIn t (bagsContaining t u)

/-- Input graph for the validity counterexample: 8 vertices whose
maximal cliques form a chain R = \x7b4,5,6,7\x7d, S = \x7b2,3,6,7\x7d,
T = \x7b0,1,2,3\x7d, W = \x7b0,1,4\x7d, with vertex 4 shared by the two
chain ends R and W only. -/
def counterexampleGraph : SGraph :=
  { nodes := [0, 1, 2, 3, 4, 5, 6, 7]
    edges := [⟨4, 7⟩, ⟨4, 6⟩, ⟨4, 5⟩, ⟨7, 6⟩, ⟨7, 5⟩, ⟨6, 5⟩,
              ⟨7, 3⟩, ⟨7, 2⟩, ⟨6, 3⟩, ⟨6, 2⟩, ⟨3, 2⟩,
              ⟨3, 1⟩, ⟨3, 0⟩, ⟨2, 1⟩, ⟨2, 0⟩, ⟨1, 0⟩,
              ⟨1, 4⟩, ⟨0, 4⟩] }

/-- C1: refuted.  The spec claims that for every input graph, every
spanning-tree construction strategy and every edge weight function the
tree produced by compute_treewidth_upper_bound satisfies the three tree
decomposition axioms T1, T2 and T3.  On counterexampleGraph, the
FillWhilstMSTTree strategy with the negative_intersection weight
function produces a tree satisfying T1 and T2 but violating T3: vertex 4
lies in the bags of the root, of tree node 2 and of tree node 3, yet the
bag of tree node 1, which separates the root from nodes 2 and 3, never
receives it, because fill_bags_until_common_predecessor drops members of
the filled set that have no entry in the predecessor map (the root) and
therefore stops filling at the deepest predecessor instead of walking
the whole path up to the root. -/
theorem computeTreewidthUpperBound_not_always_valid :
    (computeTreewidthUpperBoundFillWhilstMSTTree counterexampleGraph 1000
        negativeIntersection).map
      (fun p => (checkT1 counterexampleGraph p.1, checkT2 counterexampleGraph p.1,
        checkT3 counterexampleGraph p.1))
      = .ok (true, true, false) := by
  rfl

end CliqueTW
